import Mathlib

/-!
Shallow embedding of the `ipv46` library (src/index.ts): IPv4/IPv6 address
parsing, formatting, comparison, masking, and range enumeration.  Strings are
modelled as `List Char`, JS number arrays as `List Nat`, fallible operations
as `Option`.
-/

namespace Ipv46

/-- Embeds `cmpSameLengthArrays` (index.ts lines 1-9): lexicographic three-way
comparison of two equal-length numeric arrays, returning at the first
differing element. -/
def cmpSameLengthArrays : List Nat → List Nat → Int
  | a :: as, b :: bs =>
    if a ≠ b then (if a < b then -1 else 1) else cmpSameLengthArrays as bs
  | _, _ => 0

/-- Decimal digit character test (regex class `\d`). -/
def isDigitC (c : Char) : Bool := '0' ≤ c && c ≤ '9'

/-- Decimal value of a digit string (JS `Number` on the 1-3 digit capture). -/
def decValue (g : List Char) : Nat := g.foldl (fun a c => a * 10 + (c.toNat - 48)) 0

/-- Embeds one capture group of `IPV4_REGEX` (index.ts line 11):
`25[0-5]|2[0-4]\d|1\d\d|[1-9]\d|\d`, matched against a full dot-separated
group.  Since every alternative consists of digits only, a group of the
anchored regex always matches a whole inter-dot segment. -/
def octetMatch : List Char → Bool
  | [a, b, c] =>
    (a = '2' && b = '5' && '0' ≤ c && c ≤ '5')
    || (a = '2' && '0' ≤ b && b ≤ '4' && isDigitC c)
    || (a = '1' && isDigitC b && isDigitC c)
  | [a, b] => '1' ≤ a && a ≤ '9' && isDigitC b
  | [a] => isDigitC a
  | _ => false

/-- JS `String.prototype.split` with a single-character separator. -/
def splitCh (sep : Char) : List Char → List (List Char)
  | [] => [[]]
  | c :: t =>
    if c = sep then [] :: splitCh sep t
    else
      match splitCh sep t with
      | [] => [[c]]
      | p :: ps => (c :: p) :: ps

/-- Joins pieces with a separator character (inverse of `splitCh`). -/
def joinCh (sep : Char) : List (List Char) → List Char
  | [] => []
  | [p] => p
  | p :: ps => p ++ sep :: joinCh sep ps

/-- Embeds `parseIPv4Bytes` (index.ts lines 14-20): anchored match of
`IPV4_REGEX` returning the four captured groups converted by `Number`.
The anchored regex accepts exactly the strings that decompose into four
dot-separated segments each fully matching one octet alternative. -/
def parseIPv4Bytes (s : List Char) : Option (List Nat) :=
  match splitCh '.' s with
  | [g0, g1, g2, g3] =>
    if octetMatch g0 && octetMatch g1 && octetMatch g2 && octetMatch g3 then
      some [decValue g0, decValue g1, decValue g2, decValue g3]
    else none
  | _ => none

/-- Embeds `IPv4.parse` (index.ts lines 23-32): requires a `.` character,
then delegates to `parseIPv4Bytes`. -/
def IPv4parse (s : List Char) : Option (List Nat) :=
  if s.contains '.' = false then none else parseIPv4Bytes s

/-- Embeds the carry loop testShared by `IPv4._next` (index.ts lines 59-74) and
`IPv6._next` (lines 212-227).  The loop walks indices from `i` down to 0 over
the (mutable) array; `maxv` is 255 resp. 65535.  At index 0 the JS statement
`bytes[i-1]++` writes the out-of-bounds property `-1`, which the array's
indices 0..len-1 never observe, so the loop then simply finishes. -/
def jsNextLoop (maxv : Nat) : Nat → List Nat → Option (List Nat)
  | 0, bytes =>
    let b := bytes.getD 0 0
    if b = maxv then none
    else if b < maxv then some (bytes.set 0 (b + 1))
    else some (bytes.set 0 0)
  | i + 1, bytes =>
    let b := bytes.getD (i + 1) 0
    if b < maxv then some (bytes.set (i + 1) (b + 1))
    else jsNextLoop maxv i ((bytes.set (i + 1) 0).set i (bytes.getD i 0 + 1))

/-- Embeds `IPv4._next` (index.ts lines 59-74). -/
def IPv4next (bytes : List Nat) : Option (List Nat) :=
  jsNextLoop 255 (bytes.length - 1) bytes

/-- Embeds `IPv6._next` (index.ts lines 212-227). -/
def IPv6next (words : List Nat) : Option (List Nat) :=
  jsNextLoop 65535 (words.length - 1) words

/-- Character class of `IPV6_REGEX` (index.ts line 77): `[a-f0-9:]` with the
`i` flag, i.e. also `A`-`F`. -/
def isHexColonChar (c : Char) : Bool :=
  ('a' ≤ c && c ≤ 'f') || ('A' ≤ c && c ≤ 'F') || ('0' ≤ c && c ≤ '9') || c = ':'

/-- Embeds the `IPV6_REGEX` test `^[a-f0-9:]{2,39}$/i` (index.ts line 77). -/
def regexOk (s : List Char) : Bool :=
  s.all isHexColonChar && decide (2 ≤ s.length) && decide (s.length ≤ 39)

/-- Hexadecimal digit test (`parseInt` base-16 digit set). -/
def isHexDigitC (c : Char) : Bool :=
  isDigitC c || ('a' ≤ c && c ≤ 'f') || ('A' ≤ c && c ≤ 'F')

/-- Value of a hexadecimal digit character. -/
def hexVal (c : Char) : Nat :=
  if isDigitC c then c.toNat - 48
  else if 'a' ≤ c then c.toNat - 87
  else c.toNat - 55

/-- Accumulating loop of `parseInt(str, 16)` over the leading run of hex
digits.  Every caller in this module passes a non-empty all-hex string (the
pieces of a `IPV6_REGEX`-validated string split on `:`), on which this agrees
with JS `parseInt`; the NaN case for digit-free strings is unreachable. -/
def parseInt16go : Nat → List Char → Nat
  | acc, c :: t => if isHexDigitC c then parseInt16go (acc * 16 + hexVal c) t else acc
  | acc, [] => acc

/-- JS `parseInt(str, 16)` as used by `parseHexWords` (index.ts line 92). -/
def parseInt16 (s : List Char) : Nat := parseInt16go 0 s

/-- Spec wording of a word's value: the big-endian base-16 value of its hex
digits. -/
def hexValue (g : List Char) : Nat := g.foldl (fun a c => a * 16 + hexVal c) 0

/-- Per-piece loop of `parseHexWords` (index.ts lines 85-94): each piece must
be non-empty and at most 4 characters, and is converted by `parseInt(_, 16)`. -/
def wordsOfPieces : List (List Char) → Option (List Nat)
  | [] => some []
  | p :: ps =>
    if p.length = 0 || 4 < p.length then none
    else
      match wordsOfPieces ps with
      | some ws => some (parseInt16 p :: ws)
      | none => none

/-- Embeds `parseHexWords` (index.ts lines 80-95). -/
def parseHexWords (s : List Char) : Option (List Nat) :=
  if s.isEmpty then some [] else wordsOfPieces (splitCh ':' s)

/-- JS `indexOf("::")`: position of the first (possibly overlapping)
occurrence of two consecutive colons. -/
def findCC : List Char → Option Nat
  | [] => none
  | c :: t =>
    if c = ':' ∧ t.head? = some ':' then some 0 else (findCC t).map (· + 1)

/-- Whether `s` has two consecutive colons starting at position `p`. -/
def hasCCAt (s : List Char) (p : Nat) : Bool :=
  decide ((s.drop p).head? = some ':') && decide ((s.drop p).tail.head? = some ':')

/-- Embeds `parseIPv6Words` (index.ts lines 104-134): regex validation, at
most one `::`, head/tail split around it, zero-fill to 8 words. -/
def parseIPv6Words (s : List Char) : Option (List Nat) :=
  if regexOk s = false then none
  else
    match findCC s with
    | some idx =>
      if (findCC (s.drop (idx + 1))).isSome then none
      else
        match parseHexWords (s.take idx), parseHexWords (s.drop (idx + 2)) with
        | some head, some tail =>
          if 7 < head.length + tail.length then none
          else some (head ++ List.replicate (8 - head.length - tail.length) 0 ++ tail)
        | _, _ => none
    | none =>
      match parseHexWords s with
      | some head => if head.length ≠ 8 then none else some head
      | none => none

/-- JS `lastIndexOf(":")` (index.ts line 164), `none` for `-1`. -/
def lastIdxColon : List Char → Option Nat
  | [] => none
  | c :: t =>
    match lastIdxColon t with
    | some i => some (i + 1)
    | none => if c = ':' then some 0 else none

/-- Embeds `IPv6.parse` (index.ts lines 163-185): requires a colon; if the
text after the last colon is a dotted-quad IPv4 literal, parses the text up to
and including that colon with `"0:0"` appended and overwrites words 6 and 7
with the packed IPv4 bytes; otherwise parses the whole text as plain words. -/
def IPv6parse (s : List Char) : Option (List Nat) :=
  match lastIdxColon s with
  | none => none
  | some idx =>
    match parseIPv4Bytes (s.drop (idx + 1)) with
    | none => parseIPv6Words s
    | some bytes =>
      match parseIPv6Words (s.take (idx + 1) ++ ['0', ':', '0']) with
      | none => none
      | some ws =>
        some ((ws.set 6 (bytes.getD 0 0 * 256 + bytes.getD 1 0)).set 7
          (bytes.getD 2 0 * 256 + bytes.getD 3 0))

/-- JS `Number.prototype.toString(16)` digit character (lowercase hex). -/
def hexDigitChar (n : Nat) : Char :=
  if n < 10 then Char.ofNat (48 + n) else Char.ofNat (87 + n)

/-- Recursion of `w.toString(16)`, bounded by a fuel argument so that the
definition is structural; `n / 16 < n` makes `n + 1` fuel always enough. -/
def hexCharsAux : Nat → Nat → List Char
  | 0, _ => []
  | fuel + 1, n =>
    if n < 16 then [hexDigitChar n]
    else hexCharsAux fuel (n / 16) ++ [hexDigitChar (n % 16)]

/-- JS `w.toString(16)`: minimal-length lowercase hexadecimal numeral. -/
def hexChars (n : Nat) : List Char := hexCharsAux (n + 1) n

/-- Embeds `formatHexWords` (index.ts lines 97-102) applied to an already
sliced word list: hex-format each word and join with `:`. -/
def formatHexWords (ws : List Nat) : List Char := joinCh ':' (ws.map hexChars)

/-- Embeds the zero-run scan of `formatIPv6` (index.ts lines 137-150): state
`(currentRun, longestRun, start)` over words at increasing indices.  The JS
assignment `start = i - currentRun + 1` is written `i + 1 - cur` (the run
starting index, always non-negative). -/
def findRunAux : List Nat → Nat → Nat → Nat → Option Nat → Nat × Option Nat
  | [], _, _, longest, start => (longest, start)
  | w :: t, i, cur, longest, start =>
    if w = 0 then
      if 1 < cur + 1 ∧ longest < cur + 1 then
        findRunAux t (i + 1) (cur + 1) (cur + 1) (some (i + 1 - (cur + 1)))
      else findRunAux t (i + 1) (cur + 1) longest start
    else findRunAux t (i + 1) 0 longest start

/-- The zero-run scan of `formatIPv6` started on fresh state. -/
def findRun (ws : List Nat) : Nat × Option Nat := findRunAux ws 0 0 0 none

/-- Embeds `formatIPv6` (index.ts lines 136-160). -/
def formatIPv6 (ws : List Nat) : List Char :=
  match findRun ws with
  | (_, none) => formatHexWords ws
  | (longest, some start) =>
    formatHexWords (ws.take start) ++ ':' :: ':' :: formatHexWords (ws.drop (start + longest))

/-- Embeds `IPv6.toString` (index.ts lines 199-204): `formatIPv6` followed by
`toLowerCase`. -/
def IPv6toString (ws : List Nat) : List Char := (formatIPv6 ws).map Char.toLower

/-- Per-item step of `mask` (index.ts lines 250-268).  JS
`Math.min(Math.max(0, (i+1)*W - bits), W)` is `min ((i+1)*W - bits) W` with
truncating `Nat` subtraction. -/
def maskItem (W bits bitValue i w : Nat) : Nat :=
  let itemMask := (1 <<< W) - 1
  let leftBits := min ((i + 1) * W - bits) W
  (w &&& ((itemMask <<< leftBits) &&& itemMask)) ||| (bitValue * ((1 <<< leftBits) - 1))

/-- Index-carrying loop of `mask` (index.ts lines 259-266). -/
def maskItems (W bits bitValue : Nat) : Nat → List Nat → List Nat
  | _, [] => []
  | i, w :: t => maskItem W bits bitValue i w :: maskItems W bits bitValue (i + 1) t

/-- Embeds `mask` (index.ts lines 250-268). -/
def mask (ws : List Nat) (bits W bitValue : Nat) : List Nat :=
  maskItems W bits bitValue 0 ws

/-- The version-tagged address union `IP` (index.ts line 230). -/
inductive IP where
  | v4 (bytes : List Nat)
  | v6 (words : List Nat)
deriving DecidableEq

/-- The `version` field of an address (4 or 6). -/
def IPversion : IP → Nat
  | .v4 _ => 4
  | .v6 _ => 6

/-- Embeds `IP.cmp` (index.ts lines 237-247): same-version addresses compare
by the ordinal comparator; across versions the result is
`a.version < b.version ? -1 : 1`, i.e. IPv4 below IPv6.  The final
`TypeError` branch of the source is unreachable for this two-variant union. -/
def IPcmp (a b : IP) : Int :=
  match a, b with
  | .v6 x, .v6 y => cmpSameLengthArrays x y
  | .v4 x, .v4 y => cmpSameLengthArrays x y
  | .v4 _, .v6 _ => -1
  | .v6 _, .v4 _ => 1

/-- Embeds `IP.parse` (index.ts lines 233-235): IPv4 first, then IPv6. -/
def IPparse (s : List Char) : Option IP :=
  match IPv4parse s with
  | some b => some (.v4 b)
  | none =>
    match IPv6parse s with
    | some w => some (.v6 w)
    | none => none

/-- Version dispatch of `_next` for the union. -/
def IPnext : IP → Option IP
  | .v4 b => (IPv4next b).map .v4
  | .v6 w => (IPv6next w).map .v6

/-- The `IPRange` value (index.ts lines 310-312): `first`, `last`, `version`. -/
structure IPRangeT where
  first : IP
  last : IP
  version : Nat
deriving DecidableEq

/-- Embeds the `IPRange` constructor (index.ts lines 316-328): differing
versions throw a `TypeError` (modelled as `none`); otherwise the endpoints
are ordered so that `first ≤ last`, swapping when given reversed. -/
def mkRange (first last : IP) : Option IPRangeT :=
  if IPversion first ≠ IPversion last then none
  else if 0 < IPcmp first last then some ⟨last, first, IPversion first⟩
  else some ⟨first, last, IPversion first⟩

/-- Embeds `IPv4.cidr`/`IPv6.cidr` (index.ts lines 53-57 and 206-210):
mask with fill 0 for the first and fill 1 for the last endpoint. -/
def IPcidr : IP → Nat → Option IPRangeT
  | .v4 b, bits => mkRange (.v4 (mask b bits 8 0)) (.v4 (mask b bits 8 1))
  | .v6 w, bits => mkRange (.v6 (mask w bits 16 0)) (.v6 (mask w bits 16 1))

/-- Embeds `IPRange.parse` (index.ts lines 271-308).  The CIDR arm models the
anchored regex `^([^\x2f]+)/(\d+)$`: exactly one `/`, a non-empty prefix and a
non-empty all-digit suffix.  The `-` arm splits on every `-` and requires
exactly two pieces, both parsing to addresses of the same version. -/
def IPRangeparse (s : List Char) : Option IPRangeT :=
  if s.contains '/' then
    match splitCh '/' s with
    | [pre, post] =>
      if pre.length = 0 || post.length = 0 || post.all isDigitC = false then none
      else
        match IPparse pre with
        | none => none
        | some ip =>
          if (IPversion ip = 4 && 32 < decValue post)
              || (IPversion ip = 6 && 128 < decValue post) then none
          else IPcidr ip (decValue post)
    | _ => none
  else if s.contains '-' then
    match splitCh '-' s with
    | [p0, p1] =>
      match IPparse p0, IPparse p1 with
      | some a, some b => if IPversion a = IPversion b then mkRange a b else none
      | _, _ => none
    | _ => none
  else
    match IPparse s with
    | some ip => mkRange ip ip
    | none => none

/-- Fuel-bounded embedding of the `ips()` generator loop (index.ts lines
330-336): yield while the candidate exists and does not exceed `last`.
Returns `none` only when the fuel runs out before the loop stops, so a `some`
result is exactly the finite sequence the generator yields. -/
def ipsGo (last : IP) : Nat → Option IP → Option (List IP)
  | 0, _ => none
  | _ + 1, none => some []
  | fuel + 1, some ip =>
    if IPcmp ip last ≤ 0 then (ipsGo last fuel (IPnext ip)).map (ip :: ·)
    else some []

/-- `ips()` on a range value, with fuel. -/
def ipsOf (r : IPRangeT) (fuel : Nat) : Option (List IP) :=
  ipsGo r.last fuel (some r.first)

/-! ### Specification-side definitions (from the spec wording, for comparison) -/

/-- Spec wording for one IPv4 group: 1-3 decimal digits, numerically at most
255, no leading zero except the literal `0`. -/
def octetSpec (g : List Char) : Prop :=
  g.all isDigitC = true ∧ 1 ≤ g.length ∧ g.length ≤ 3 ∧
    (2 ≤ g.length → g.head? ≠ some '0') ∧ decValue g ≤ 255

/-- Spec wording for an accepted IPv4 literal: four dot-separated decimal
groups, each a valid octet, and the components are their decimal values. -/
def specIPv4 (s : List Char) (bs : List Nat) : Prop :=
  ∃ g0 g1 g2 g3, s = g0 ++ '.' :: (g1 ++ '.' :: (g2 ++ '.' :: g3)) ∧
    octetSpec g0 ∧ octetSpec g1 ∧ octetSpec g2 ∧ octetSpec g3 ∧
    bs = [decValue g0, decValue g1, decValue g2, decValue g3]

/-- Length of the leading run of zero words. -/
def zeroRunLen : List Nat → Nat
  | 0 :: t => zeroRunLen t + 1
  | _ => 0

/-- Length of the run of zero words starting at position `s`. -/
def runAt (ws : List Nat) (s : Nat) : Nat := zeroRunLen (ws.drop s)

/-- Spec wording for the compression choice: the first (leftmost) position
whose zero-run has length at least 2 and is at least as long as every other
run. -/
def bestStart (ws : List Nat) : Option Nat :=
  (List.range ws.length).find? fun s =>
    decide (2 ≤ runAt ws s ∧ ∀ t, t < ws.length → runAt ws t ≤ runAt ws s)

/-- Boolean zero-pattern version of `zeroRunLen`. -/
def zeroRunLenB : List Bool → Nat
  | true :: t => zeroRunLenB t + 1
  | _ => 0

/-- Boolean zero-pattern version of `runAt`. -/
def runAtB (zs : List Bool) (s : Nat) : Nat := zeroRunLenB (zs.drop s)

/-- Boolean zero-pattern version of `bestStart`. -/
def bestStartB (zs : List Bool) : Option Nat :=
  (List.range zs.length).find? fun s =>
    decide (2 ≤ runAtB zs s ∧ ∀ t, t < zs.length → runAtB zs t ≤ runAtB zs s)

/-- Boolean zero-pattern version of `findRunAux`. -/
def findRunAuxB : List Bool → Nat → Nat → Nat → Option Nat → Nat × Option Nat
  | [], _, _, longest, start => (longest, start)
  | z :: t, i, cur, longest, start =>
    if z then
      if 1 < cur + 1 ∧ longest < cur + 1 then
        findRunAuxB t (i + 1) (cur + 1) (cur + 1) (some (i + 1 - (cur + 1)))
      else findRunAuxB t (i + 1) (cur + 1) longest start
    else findRunAuxB t (i + 1) 0 longest start

/-- Spec wording of the per-item clamp `clamp((i+1)·W - bits, 0, W)`. -/
def clampLeftBits (W bits i : Nat) : Nat := min ((i + 1) * W - bits) W

/-- Spec wording of the masked items: clear the low `clampLeftBits` bits of
each item and, when `fill = 1`, set those same bits to 1. -/
def specMaskItems (W bits fill : Nat) : Nat → List Nat → List Nat
  | _, [] => []
  | i, w :: t =>
    (w - w % 2 ^ clampLeftBits W bits i + fill * (2 ^ clampLeftBits W bits i - 1))
      :: specMaskItems W bits fill (i + 1) t

/-- Spec-worded masking over a whole address. -/
def specMask (ws : List Nat) (bits W fill : Nat) : List Nat :=
  specMaskItems W bits fill 0 ws

/-- A structurally valid parsed address: 4 components below 256, or 8
components below 65536. -/
def validIP : IP → Prop
  | .v4 b => b.length = 4 ∧ ∀ x ∈ b, x < 256
  | .v6 w => w.length = 8 ∧ ∀ x ∈ w, x < 65536

/-! ### Helper lemmas about the ordinal comparator -/

theorem cmpL_refl (a : List Nat) : cmpSameLengthArrays a a = 0 := by
  induction a with
  | nil => rfl
  | cons x xs ih => simp [cmpSameLengthArrays, ih]

theorem cmpL_antisym (a b : List Nat) :
    cmpSameLengthArrays a b = -cmpSameLengthArrays b a := by
  induction a generalizing b with
  | nil => cases b <;> rfl
  | cons x xs ih =>
    cases b with
    | nil => rfl
    | cons y ys =>
      by_cases h : x = y
      · subst h
        simpa [cmpSameLengthArrays] using ih ys
      · rcases Nat.lt_or_ge x y with hlt | hge
        · simp [cmpSameLengthArrays, h, Ne.symm h, hlt, Nat.not_lt.mpr (Nat.le_of_lt hlt)]
        · have hgt : y < x := Nat.lt_of_le_of_ne hge (Ne.symm h)
          simp [cmpSameLengthArrays, h, Ne.symm h, hgt, Nat.not_lt.mpr (Nat.le_of_lt hgt)]

theorem cmpL_trans_neg (a b c : List Nat) (hab : a.length = b.length)
    (hbc : b.length = c.length) (h1 : cmpSameLengthArrays a b = -1)
    (h2 : cmpSameLengthArrays b c = -1) : cmpSameLengthArrays a c = -1 := by
  induction a generalizing b c with
  | nil =>
    cases b with
    | nil => simp [cmpSameLengthArrays] at h2
    | cons y ys => simp at hab
  | cons x xs ih =>
    cases b with
    | nil => simp at hab
    | cons y ys =>
      cases c with
      | nil => simp at hbc
      | cons z zs =>
        simp only [cmpSameLengthArrays] at h1 h2 ⊢
        by_cases hxy : x = y
        · subst hxy
          by_cases hyz : x = z
          · subst hyz
            simp only [ne_eq, not_true_eq_false, if_false] at h1 h2 ⊢
            exact ih ys zs (by simpa using hab) (by simpa using hbc) h1 h2
          · simp only [ne_eq, hyz, not_false_eq_true, if_true] at h2 ⊢
            exact h2
        · simp only [ne_eq, hxy, not_false_eq_true, if_true] at h1
          have hx : x < y := by
            by_contra hx
            simp [hx] at h1
          by_cases hyz : y = z
          · subst hyz
            simp [hxy, hx]
          · simp only [ne_eq, hyz, not_false_eq_true, if_true] at h2
            have hy : y < z := by
              by_contra hy
              simp [hy] at h2
            have hxz : x < z := Nat.lt_trans hx hy
            simp [Nat.ne_of_lt hxz, hxz]

theorem cmpL_cases (a b : List Nat) :
    cmpSameLengthArrays a b = -1 ∨ cmpSameLengthArrays a b = 0 ∨
      cmpSameLengthArrays a b = 1 := by
  induction a generalizing b with
  | nil => cases b <;> simp [cmpSameLengthArrays]
  | cons x xs ih =>
    cases b with
    | nil => simp [cmpSameLengthArrays]
    | cons y ys =>
      simp only [cmpSameLengthArrays]
      by_cases h : x = y
      · simpa [h] using ih ys
      · by_cases hlt : x < y <;> simp [h, hlt]

theorem cmpL_le_of_forall2 (a b : List Nat) (h : List.Forall₂ (· ≤ ·) a b) :
    cmpSameLengthArrays a b ≤ 0 := by
  induction h with
  | nil => simp [cmpSameLengthArrays]
  | @cons x y xs ys hxy _ ih =>
    simp only [cmpSameLengthArrays]
    by_cases hne : x = y
    · simpa [hne] using ih
    · simp [hne, Nat.lt_of_le_of_ne hxy hne]

theorem IPcmp_refl (x : IP) : IPcmp x x = 0 := by
  cases x <;> simp [IPcmp, cmpL_refl]

theorem IPcmp_antisym (x y : IP) : IPcmp x y = -IPcmp y x := by
  cases x <;> cases y <;> simp [IPcmp] <;> exact cmpL_antisym _ _

/-! ### Helper lemmas about characters and splitting -/

theorem charLe_iff (a b : Char) : (a ≤ b) ↔ a.toNat ≤ b.toNat := Iff.rfl

theorem charEq_iff (a b : Char) : (a = b) ↔ a.toNat = b.toNat := by
  constructor
  · intro h
    rw [h]
  · intro h
    exact Char.ext (UInt32.ext (by exact h))

theorem isDigitC_iff (c : Char) : isDigitC c = true ↔ 48 ≤ c.toNat ∧ c.toNat ≤ 57 := by
  simp [isDigitC, charLe_iff c '9', charLe_iff '0' c]

theorem splitCh_ne_nil (sep : Char) (s : List Char) : splitCh sep s ≠ [] := by
  cases s with
  | nil => simp [splitCh]
  | cons c t =>
    simp only [splitCh]
    split_ifs
    · simp
    · rcases h : splitCh sep t with _ | ⟨p, ps⟩ <;> simp

theorem splitCh_sep_free (sep : Char) (g : List Char) (h : sep ∉ g) :
    splitCh sep g = [g] := by
  induction g with
  | nil => rfl
  | cons c t ih =>
    simp only [List.mem_cons, not_or] at h
    have hne : ¬c = sep := fun hc => h.1 hc.symm
    simp only [splitCh, if_neg hne, ih h.2]

theorem splitCh_append (sep : Char) (g r : List Char) (h : sep ∉ g) :
    splitCh sep (g ++ sep :: r) = g :: splitCh sep r := by
  induction g with
  | nil => simp [splitCh]
  | cons c t ih =>
    simp only [List.mem_cons, not_or] at h
    have hne : ¬c = sep := fun hc => h.1 hc.symm
    simp only [List.cons_append, splitCh, if_neg hne, List.append_eq, ih h.2]

theorem joinCh_splitCh (sep : Char) (s : List Char) :
    joinCh sep (splitCh sep s) = s := by
  induction s with
  | nil => rfl
  | cons c t ih =>
    simp only [splitCh]
    split_ifs with hc
    · subst hc
      rcases hs : splitCh c t with _ | ⟨p, ps⟩
      · exact absurd hs (splitCh_ne_nil c t)
      · rw [hs] at ih
        simpa [joinCh] using ih
    · rcases hs : splitCh sep t with _ | ⟨p, ps⟩
      · exact absurd hs (splitCh_ne_nil sep t)
      · rw [hs] at ih
        cases ps with
        | nil => simpa [joinCh] using ih
        | cons q qs => simpa [joinCh] using ih

theorem splitCh_mem_chars (sep : Char) (s : List Char) :
    ∀ p ∈ splitCh sep s, ∀ c ∈ p, c ∈ s ∧ c ≠ sep := by
  induction s with
  | nil =>
    intro p hp c hc
    simp [splitCh] at hp
    subst hp
    simp at hc
  | cons x t ih =>
    intro p hp c hc
    simp only [splitCh] at hp
    by_cases hx : x = sep
    · rw [if_pos hx] at hp
      rcases List.mem_cons.mp hp with h | h
      · subst h
        simp at hc
      · obtain ⟨h1, h2⟩ := ih p h c hc
        exact ⟨List.mem_cons_of_mem _ h1, h2⟩
    · rw [if_neg hx] at hp
      rcases hs : splitCh sep t with _ | ⟨q, qs⟩
      · exact absurd hs (splitCh_ne_nil sep t)
      · rw [hs] at hp
        rcases List.mem_cons.mp hp with h | h
        · subst h
          rcases List.mem_cons.mp hc with h | h
          · subst h
            exact ⟨List.mem_cons_self _ _, hx⟩
          · obtain ⟨h1, h2⟩ := ih q (by rw [hs]; exact List.mem_cons_self _ _) c h
            exact ⟨List.mem_cons_of_mem _ h1, h2⟩
        · obtain ⟨h1, h2⟩ := ih p (by rw [hs]; exact List.mem_cons_of_mem _ h) c hc
          exact ⟨List.mem_cons_of_mem _ h1, h2⟩

/-- The octet alternation of `IPV4_REGEX` accepts exactly the spec-worded
octets: 1-3 decimal digits, value at most 255, no leading zero. -/
theorem octetMatch_iff (g : List Char) : octetMatch g = true ↔ octetSpec g := by
  match g with
  | [] => simp [octetMatch, octetSpec]
  | [a] =>
    simp only [octetMatch, octetSpec, List.all_cons, List.all_nil, Bool.and_true,
      isDigitC_iff, List.length_singleton, decValue, List.foldl]
    constructor
    · intro h
      refine ⟨h, by omega, by omega, by omega, by omega⟩
    · intro h
      exact h.1
  | [a, b] =>
    simp only [octetMatch, octetSpec, List.all_cons, List.all_nil, Bool.and_true,
      Bool.and_eq_true, decide_eq_true_eq, isDigitC_iff, List.length_cons,
      List.length_nil, decValue, List.foldl, List.head?_cons, ne_eq,
      Option.some_inj, charEq_iff, charLe_iff '1' a, charLe_iff a '9']
    have h1 : ('1' : Char).toNat = 49 := rfl
    have h9 : ('9' : Char).toNat = 57 := rfl
    have h0 : ('0' : Char).toNat = 48 := rfl
    rw [h1, h9, h0]
    omega
  | [a, b, c] =>
    simp only [octetMatch, octetSpec, List.all_cons, List.all_nil, Bool.and_true,
      Bool.and_eq_true, Bool.or_eq_true, decide_eq_true_eq, isDigitC_iff,
      List.length_cons, List.length_nil, decValue, List.foldl, List.head?_cons,
      ne_eq, Option.some_inj, charEq_iff, charLe_iff '0' c, charLe_iff c '5',
      charLe_iff '0' b, charLe_iff b '4']
    have h2 : ('2' : Char).toNat = 50 := rfl
    have h5 : ('5' : Char).toNat = 53 := rfl
    have h0 : ('0' : Char).toNat = 48 := rfl
    have h4 : ('4' : Char).toNat = 52 := rfl
    have h1 : ('1' : Char).toNat = 49 := rfl
    rw [h2, h5, h0, h4, h1]
    omega
  | a :: b :: c :: d :: t =>
    simp only [octetMatch, octetSpec, List.length_cons]
    constructor
    · intro h
      cases h
    · intro h
      omega

theorem IPcmp_trans_neg (x y z : IP) (hx : validIP x) (hy : validIP y)
    (hz : validIP z) (h1 : IPcmp x y = -1) (h2 : IPcmp y z = -1) :
    IPcmp x z = -1 := by
  cases x with
  | v4 xb =>
    cases y with
    | v4 yb =>
      cases z with
      | v4 zb =>
        exact cmpL_trans_neg _ _ _ (hx.1.trans hy.1.symm) (hy.1.trans hz.1.symm) h1 h2
      | v6 zw => rfl
    | v6 yw =>
      cases z with
      | v4 zb => simp [IPcmp] at h2
      | v6 zw => rfl
  | v6 xw =>
    cases y with
    | v4 yb => simp [IPcmp] at h1
    | v6 yw =>
      cases z with
      | v4 zb => simp [IPcmp] at h2
      | v6 zw =>
        exact cmpL_trans_neg _ _ _ (hx.1.trans hy.1.symm) (hy.1.trans hz.1.symm) h1 h2

/-! ### Claim C8 -/

/-- C8.  `IP.cmp` is a strict total order on parsed addresses: zero on equal
arguments, antisymmetric, transitive, valued in {-1, 0, 1}; same-version
addresses compare numerically (9.0.0.0 below 10.0.0.0), and every IPv4
address compares strictly below every IPv6 address. -/
theorem C8_cmp_total_order :
    (∀ x : IP, IPcmp x x = 0) ∧
    (∀ x y : IP, IPcmp x y = -IPcmp y x) ∧
    (∀ x y z : IP, validIP x → validIP y → validIP z →
      IPcmp x y = -1 → IPcmp y z = -1 → IPcmp x z = -1) ∧
    (∀ x y : IP, IPcmp x y = -1 ∨ IPcmp x y = 0 ∨ IPcmp x y = 1) ∧
    (∃ a b, IPparse ("9.0.0.0".toList) = some a ∧
      IPparse ("10.0.0.0".toList) = some b ∧ IPcmp a b = -1) ∧
    (∀ (bytes words : List Nat), IPcmp (.v4 bytes) (.v6 words) = -1) := by
  refine ⟨IPcmp_refl, IPcmp_antisym, IPcmp_trans_neg, ?_, ?_, fun _ _ => rfl⟩
  · intro x y
    cases x <;> cases y <;> simp [IPcmp] <;> exact cmpL_cases _ _
  · exact ⟨.v4 [9, 0, 0, 0], .v4 [10, 0, 0, 0], by decide, by decide, by decide⟩

/-- Closed witness for `C8_cmp_total_order` (transitivity at a concrete
valid triple). -/
theorem C8_cmp_total_order_witness :
    IPcmp (IP.v4 [9, 0, 0, 0]) (IP.v6 [1, 2, 3, 4, 5, 6, 7, 8]) = -1 := by
  exact C8_cmp_total_order.2.2.1 (IP.v4 [9, 0, 0, 0]) (IP.v4 [10, 0, 0, 0])
    (IP.v6 [1, 2, 3, 4, 5, 6, 7, 8]) ⟨by decide, by decide⟩
    ⟨by decide, by decide⟩ ⟨by decide, by decide⟩ (by decide) (by decide)

/-! ### Helper lemmas about the double-colon scan and hex words -/

theorem hasCCAt_cons_succ (c : Char) (t : List Char) (p : Nat) :
    hasCCAt (c :: t) (p + 1) = hasCCAt t p := by
  unfold hasCCAt
  rw [List.drop_succ_cons]

theorem hasCCAt_zero_cons (c : Char) (t : List Char) :
    hasCCAt (c :: t) 0 = (decide (c = ':') && decide (t.head? = some ':')) := by
  simp [hasCCAt]

theorem hasCCAt_ge (s : List Char) (p : Nat) (h : s.length ≤ p) :
    hasCCAt s p = false := by
  unfold hasCCAt
  rw [List.drop_eq_nil_of_le h]
  simp

theorem hasCCAt_drop (s : List Char) (k r : Nat) :
    hasCCAt (s.drop k) r = hasCCAt s (k + r) := by
  unfold hasCCAt
  rw [List.drop_drop]

theorem findCC_none_iff (s : List Char) :
    findCC s = none ↔ ∀ p, hasCCAt s p = false := by
  induction s with
  | nil =>
    constructor
    · intro _ p
      exact hasCCAt_ge [] p (by simp)
    · intro _
      rfl
  | cons c t ih =>
    simp only [findCC]
    split_ifs with hcc
    · constructor
      · intro h
        simp at h
      · intro h
        have h0 := h 0
        rw [hasCCAt_zero_cons] at h0
        simp [hcc.1, hcc.2] at h0
    · rw [Option.map_eq_none']
      constructor
      · intro h p
        cases p with
        | zero =>
          rw [hasCCAt_zero_cons]
          rcases not_and_or.mp hcc with h' | h' <;> simp [h']
        | succ p =>
          rw [hasCCAt_cons_succ]
          exact (ih.mp h) p
      · intro h
        apply ih.mpr
        intro p
        have hp := h (p + 1)
        rwa [hasCCAt_cons_succ] at hp

theorem findCC_some_min (s : List Char) (p : Nat) (h : findCC s = some p) :
    hasCCAt s p = true ∧ ∀ q, q < p → hasCCAt s q = false := by
  induction s generalizing p with
  | nil => simp [findCC] at h
  | cons c t ih =>
    simp only [findCC] at h
    split_ifs at h with hcc
    · injection h with h
      subst h
      refine ⟨?_, fun q hq => by omega⟩
      rw [hasCCAt_zero_cons]
      simp [hcc.1, hcc.2]
    · rw [Option.map_eq_some'] at h
      obtain ⟨a, ha, rfl⟩ := h
      obtain ⟨h1, h2⟩ := ih a ha
      refine ⟨by rwa [hasCCAt_cons_succ], ?_⟩
      intro q hq
      cases q with
      | zero =>
        rw [hasCCAt_zero_cons]
        rcases not_and_or.mp hcc with h' | h' <;> simp [h']
      | succ q =>
        rw [hasCCAt_cons_succ]
        exact h2 q (by omega)

theorem parseInt16go_eq (g : List Char) (acc : Nat)
    (h : g.all isHexDigitC = true) :
    parseInt16go acc g = g.foldl (fun a c => a * 16 + hexVal c) acc := by
  induction g generalizing acc with
  | nil => rfl
  | cons c t ih =>
    simp only [List.all_cons, Bool.and_eq_true] at h
    simp only [parseInt16go, if_pos h.1, List.foldl]
    exact ih _ h.2

theorem parseInt16_eq_hexValue (g : List Char) (h : g.all isHexDigitC = true) :
    parseInt16 g = hexValue g :=
  parseInt16go_eq g 0 h

theorem wordsOfPieces_eq_some (ps : List (List Char)) (ws : List Nat)
    (h : wordsOfPieces ps = some ws) :
    ws = ps.map parseInt16 ∧ ∀ p ∈ ps, 1 ≤ p.length ∧ p.length ≤ 4 := by
  induction ps generalizing ws with
  | nil =>
    simp only [wordsOfPieces] at h
    injection h with h
    subst h
    simp
  | cons p ps ih =>
    simp only [wordsOfPieces] at h
    split_ifs at h with hlen
    rcases hw : wordsOfPieces ps with _ | ws'
    · rw [hw] at h
      simp at h
    · rw [hw] at h
      injection h with h
      subst h
      obtain ⟨ih1, ih2⟩ := ih ws' hw
      refine ⟨by simp [ih1], ?_⟩
      intro q hq
      rcases List.mem_cons.mp hq with hq | hq
      · subst hq
        simp only [Bool.or_eq_true, decide_eq_true_eq, not_or] at hlen
        omega
      · exact ih2 q hq

theorem parseHexWords_eq_some (s : List Char) (ws : List Nat) (hne : s ≠ [])
    (h : parseHexWords s = some ws) :
    ws = (splitCh ':' s).map parseInt16 ∧
      ∀ p ∈ splitCh ':' s, 1 ≤ p.length ∧ p.length ≤ 4 := by
  unfold parseHexWords at h
  rw [if_neg (by simpa using hne)] at h
  exact wordsOfPieces_eq_some _ _ h

theorem hexDigit_of_hexColon (c : Char) (h1 : isHexColonChar c = true)
    (h2 : c ≠ ':') : isHexDigitC c = true := by
  have e1 : ('a' : Char).toNat = 97 := rfl
  have e2 : ('f' : Char).toNat = 102 := rfl
  have e3 : ('A' : Char).toNat = 65 := rfl
  have e4 : ('F' : Char).toNat = 70 := rfl
  have e5 : ('0' : Char).toNat = 48 := rfl
  have e6 : ('9' : Char).toNat = 57 := rfl
  have e7 : (':' : Char).toNat = 58 := rfl
  simp only [ne_eq, charEq_iff, e7] at h2
  simp only [isHexColonChar, Bool.or_eq_true, Bool.and_eq_true,
    decide_eq_true_eq, charLe_iff, charEq_iff, e1, e2, e3, e4, e5, e6, e7] at h1
  simp only [isHexDigitC, isDigitC, Bool.or_eq_true, Bool.and_eq_true,
    decide_eq_true_eq, charLe_iff, e1, e2, e3, e4, e5, e6]
  omega

/-! ### Helper lemmas about masking -/

theorem testBit_mul_pow_add (q L r i : Nat) (hr : r < 2 ^ L) :
    (2 ^ L * q + r).testBit i =
      if i < L then r.testBit i else q.testBit (i - L) := by
  by_cases hi : i < L
  · rw [if_pos hi, Nat.testBit_to_div_mod, Nat.testBit_to_div_mod]
    have hexp : i + (L - i) = L := by omega
    have hm : 2 ^ L * q = 2 ^ i * 2 ^ (L - i) * q := by
      rw [← Nat.pow_add, hexp]
    rw [hm, Nat.mul_assoc, Nat.mul_comm (2 ^ i) _, Nat.add_comm,
      Nat.add_mul_div_right _ _ (Nat.two_pow_pos i)]
    have hev : 2 ^ (L - i) * q = 2 * (2 ^ (L - i - 1) * q) := by
      rw [← Nat.mul_assoc]
      congr 1
      rw [← Nat.pow_succ']
      congr 1
      omega
    rw [hev, Nat.add_mul_mod_self_left]
  · rw [if_neg hi, Nat.testBit_to_div_mod, Nat.testBit_to_div_mod]
    have h1 : (2 ^ L * q + r) / 2 ^ i = (2 ^ L * q + r) / 2 ^ L / 2 ^ (i - L) := by
      rw [Nat.div_div_eq_div_mul, ← Nat.pow_add]
      congr 2
      omega
    have h2 : (2 ^ L * q + r) / 2 ^ L = q := by
      rw [Nat.mul_comm, Nat.add_comm, Nat.add_mul_div_right _ _ (Nat.two_pow_pos L),
        Nat.div_eq_of_lt hr]
      omega
    rw [h1, h2]

theorem lor_fill_eq (q L r : Nat) (hr : r < 2 ^ L) :
    (2 ^ L * q) ||| r = 2 ^ L * q + r := by
  apply Nat.eq_of_testBit_eq
  intro i
  rw [Nat.testBit_lor, testBit_mul_pow_add q L r i hr]
  by_cases hi : i < L
  · rw [if_pos hi]
    have h1 : (2 ^ L * q).testBit i = false := by
      rw [Nat.mul_comm, ← Nat.shiftLeft_eq, Nat.testBit_shiftLeft]
      simp [Nat.not_le.mpr hi]
    rw [h1]
    simp
  · rw [if_neg hi]
    have h2 : r.testBit i = false :=
      Nat.testBit_lt_two_pow
        (lt_of_lt_of_le hr (Nat.pow_le_pow_right (by omega) (by omega)))
    have h3 : (2 ^ L * q).testBit i = q.testBit (i - L) := by
      rw [Nat.mul_comm, ← Nat.shiftLeft_eq, Nat.testBit_shiftLeft]
      simp [Nat.not_lt.mp hi]
    rw [h2, h3]
    simp

theorem land_mask_eq (w W L : Nat) (hw : w < 2 ^ W) (_hL : L ≤ W) :
    w &&& ((((1 <<< W) - 1) <<< L) &&& ((1 <<< W) - 1)) = 2 ^ L * (w / 2 ^ L) := by
  have hM : (1 <<< W) - 1 = 2 ^ W - 1 := by
    rw [Nat.shiftLeft_eq, one_mul]
  have hq : 2 ^ L * (w / 2 ^ L) = (w >>> L) <<< L := by
    rw [Nat.shiftRight_eq_div_pow, Nat.shiftLeft_eq, Nat.mul_comm]
  rw [hM, hq]
  apply Nat.eq_of_testBit_eq
  intro i
  rw [Nat.testBit_land, Nat.testBit_land, Nat.testBit_shiftLeft,
    Nat.testBit_shiftLeft, Nat.testBit_two_pow_sub_one,
    Nat.testBit_two_pow_sub_one, Nat.testBit_shiftRight]
  by_cases hi : i < W
  · by_cases hLi : L ≤ i
    · have h1 : L + (i - L) = i := by omega
      have h2 : i - L < W := by omega
      simp [hLi, hi, h1, h2]
    · simp [hLi]
  · have h0 : w.testBit i = false :=
      Nat.testBit_lt_two_pow
        (lt_of_lt_of_le hw (Nat.pow_le_pow_right (by omega) (by omega)))
    by_cases hLi : L ≤ i
    · have h3 : L + (i - L) = i := by omega
      simp [hi, h3, h0]
    · simp [hLi]

theorem maskItem_spec (W bits i w : Nat) (hw : w < 2 ^ W) :
    maskItem W bits 0 i w = w - w % 2 ^ clampLeftBits W bits i ∧
    maskItem W bits 1 i w =
      w - w % 2 ^ clampLeftBits W bits i + (2 ^ clampLeftBits W bits i - 1) := by
  have hL : min ((i + 1) * W - bits) W ≤ W := Nat.min_le_right _ _
  simp only [maskItem, clampLeftBits]
  set L := min ((i + 1) * W - bits) W with hLdef
  have hdm : w - w % 2 ^ L = 2 ^ L * (w / 2 ^ L) := by
    have := Nat.div_add_mod w (2 ^ L)
    have := Nat.mod_le w (2 ^ L)
    omega
  have hland := land_mask_eq w W L hw hL
  have hsh : (1 <<< L) - 1 = 2 ^ L - 1 := by
    rw [Nat.shiftLeft_eq, one_mul]
  constructor
  · rw [Nat.zero_mul, Nat.or_zero, hland, hdm]
  · rw [Nat.one_mul, hland, hsh,
      lor_fill_eq _ _ _ (by have hp := Nat.two_pow_pos L; omega), hdm]

theorem maskItems_spec (W bits : Nat) (ws : List Nat) (i : Nat)
    (hw : ∀ w ∈ ws, w < 2 ^ W) :
    maskItems W bits 0 i ws = specMaskItems W bits 0 i ws ∧
    maskItems W bits 1 i ws = specMaskItems W bits 1 i ws := by
  induction ws generalizing i with
  | nil => exact ⟨rfl, rfl⟩
  | cons w t ih =>
    have hwh : w < 2 ^ W := hw w (List.mem_cons_self _ _)
    have hwt : ∀ x ∈ t, x < 2 ^ W := fun x hx => hw x (List.mem_cons_of_mem _ hx)
    obtain ⟨ihs0, ihs1⟩ := ih (i + 1) hwt
    obtain ⟨hi0, hi1⟩ := maskItem_spec W bits i w hwh
    constructor
    · simp only [maskItems, specMaskItems, hi0, ihs0, Nat.zero_mul, Nat.add_zero]
    · simp only [maskItems, specMaskItems, hi1, ihs1, Nat.one_mul]

theorem specMask_forall2_le (W bits : Nat) (ws : List Nat) (i : Nat) :
    List.Forall₂ (· ≤ ·) (specMaskItems W bits 0 i ws)
      (specMaskItems W bits 1 i ws) := by
  induction ws generalizing i with
  | nil => exact List.Forall₂.nil
  | cons w t ih =>
    refine List.Forall₂.cons ?_ (ih (i + 1))
    simp only [Nat.zero_mul, Nat.add_zero, Nat.one_mul]
    exact Nat.le_add_right _ _

/-! ### Helper lemmas about the IPv6 formatter -/

theorem findRunAux_bridge (ws : List Nat) (i cur longest : Nat)
    (start : Option Nat) :
    findRunAux ws i cur longest start =
      findRunAuxB (ws.map (· == 0)) i cur longest start := by
  induction ws generalizing i cur longest start with
  | nil => rfl
  | cons w t ih =>
    cases w with
    | zero =>
      simp only [findRunAux, findRunAuxB, List.map_cons]
      rw [if_pos trivial, if_pos (show ((0 : Nat) == 0) = true from rfl)]
      split_ifs <;> exact ih ..
    | succ m =>
      simp only [findRunAux, findRunAuxB, List.map_cons]
      rw [if_neg (by omega), if_neg (by simp)]
      exact ih ..

theorem zeroRunLen_bridge (t : List Nat) :
    zeroRunLen t = zeroRunLenB (t.map (· == 0)) := by
  induction t with
  | nil => rfl
  | cons w t ih =>
    cases w with
    | zero =>
      show zeroRunLen t + 1 = zeroRunLenB (true :: t.map (· == 0))
      rw [ih]
      rfl
    | succ m =>
      show 0 = zeroRunLenB ((m + 1 == 0) :: t.map (· == 0))
      rw [show (m + 1 == 0) = false from rfl]
      rfl

theorem runAt_bridge (ws : List Nat) (s : Nat) :
    runAt ws s = runAtB (ws.map (· == 0)) s := by
  unfold runAt runAtB
  rw [← List.map_drop, zeroRunLen_bridge]

theorem bestStart_bridge (ws : List Nat) :
    bestStart ws = bestStartB (ws.map (· == 0)) := by
  unfold bestStart bestStartB
  rw [List.length_map]
  congr 1
  funext s
  rw [decide_eq_decide]
  simp only [← runAt_bridge]

/-- The zero-run scan on an explicit 8-item Boolean pattern computes the
spec-worded leftmost-longest choice (exhaustive check of all 256 patterns). -/
theorem findRunB_eq_bestB (b0 b1 b2 b3 b4 b5 b6 b7 : Bool) :
    findRunAuxB [b0, b1, b2, b3, b4, b5, b6, b7] 0 0 0 none =
      (match bestStartB [b0, b1, b2, b3, b4, b5, b6, b7] with
        | none => (0, none)
        | some s => (runAtB [b0, b1, b2, b3, b4, b5, b6, b7] s, some s)) := by
  cases b0 <;> cases b1 <;> cases b2 <;> cases b3 <;> cases b4 <;> cases b5 <;>
    cases b6 <;> cases b7 <;> decide

theorem exists_eight (l : List Nat) (hl : l.length = 8) :
    ∃ a b c d e f g k, l = [a, b, c, d, e, f, g, k] := by
  rcases l with _ | ⟨a, l⟩
  · simp at hl
  rcases l with _ | ⟨b, l⟩
  · simp at hl
  rcases l with _ | ⟨c, l⟩
  · simp at hl
  rcases l with _ | ⟨d, l⟩
  · simp at hl
  rcases l with _ | ⟨e, l⟩
  · simp at hl
  rcases l with _ | ⟨f, l⟩
  · simp at hl
  rcases l with _ | ⟨g, l⟩
  · simp at hl
  rcases l with _ | ⟨k, l⟩
  · simp at hl
  rcases l with _ | ⟨x, l⟩
  · exact ⟨a, b, c, d, e, f, g, k, rfl⟩
  · simp at hl

theorem findRun_eq_bestStart (ws : List Nat) (hl : ws.length = 8) :
    findRun ws =
      (match bestStart ws with
        | none => (0, none)
        | some s => (runAt ws s, some s)) := by
  obtain ⟨a, b, c, d, e, f, g, k, rfl⟩ := exists_eight ws hl
  unfold findRun
  rw [findRunAux_bridge, bestStart_bridge]
  simp only [List.map_cons, List.map_nil]
  rw [findRunB_eq_bestB]
  cases hbs : bestStartB [a == 0, b == 0, c == 0, d == 0, e == 0, f == 0,
      g == 0, k == 0] with
  | none => rfl
  | some s =>
    dsimp only
    have hr := runAt_bridge [a, b, c, d, e, f, g, k] s
    simp only [List.map_cons, List.map_nil] at hr
    rw [hr]

theorem map_self_of_fixed (f : Char → Char) (l : List Char)
    (h : ∀ c ∈ l, f c = c) : l.map f = l := by
  induction l with
  | nil => rfl
  | cons c t ih =>
    simp only [List.map_cons]
    rw [h c (List.mem_cons_self _ _), ih (fun x hx => h x (List.mem_cons_of_mem _ hx))]

theorem hexDigitChar_lower (m : Nat) (hm : m < 16) :
    Char.toLower (hexDigitChar m) = hexDigitChar m := by
  have H : ∀ x, x < 16 → Char.toLower (hexDigitChar x) = hexDigitChar x := by
    decide
  exact H m hm

theorem hexCharsAux_lower (fuel : Nat) :
    ∀ n, n < fuel → ∀ c ∈ hexCharsAux fuel n, Char.toLower c = c := by
  induction fuel with
  | zero =>
    intro n hn
    omega
  | succ fuel ih =>
    intro n hn c hc
    unfold hexCharsAux at hc
    split_ifs at hc with h16
    · rcases List.mem_singleton.mp hc with rfl
      exact hexDigitChar_lower n h16
    · rcases List.mem_append.mp hc with hc | hc
      · have hdiv : n / 16 < fuel := by
          have := Nat.div_lt_self (by omega : 0 < n) (by omega : 1 < 16)
          omega
        exact ih (n / 16) hdiv c hc
      · rcases List.mem_singleton.mp hc with rfl
        exact hexDigitChar_lower _ (Nat.mod_lt n (by omega))

theorem hexChars_lower (n : Nat) : ∀ c ∈ hexChars n, Char.toLower c = c :=
  hexCharsAux_lower (n + 1) n (Nat.lt_succ_self n)

theorem hexCharsAux_ne_nil (fuel : Nat) :
    ∀ n, n < fuel → hexCharsAux fuel n ≠ [] := by
  induction fuel with
  | zero =>
    intro n hn
    omega
  | succ fuel ih =>
    intro n hn
    unfold hexCharsAux
    split_ifs with h16
    · simp
    · simp

theorem hexDigitChar_ne_zero (m : Nat) (hm : m < 16) (h0 : 0 < m) :
    hexDigitChar m ≠ '0' := by
  have H : ∀ x, x < 16 → 0 < x → hexDigitChar x ≠ '0' := by
    decide
  exact H m hm h0

theorem hexCharsAux_head (fuel : Nat) :
    ∀ n, n < fuel → 0 < n → (hexCharsAux fuel n).head? ≠ some '0' := by
  induction fuel with
  | zero =>
    intro n hn
    omega
  | succ fuel ih =>
    intro n hn h0
    unfold hexCharsAux
    split_ifs with h16
    · simpa using hexDigitChar_ne_zero n h16 h0
    · have hdiv : n / 16 < fuel := by
        have := Nat.div_lt_self (by omega : 0 < n) (by omega : 1 < 16)
        omega
      have hpos : 0 < n / 16 := Nat.div_pos (by omega) (by omega)
      rcases hx : hexCharsAux fuel (n / 16) with _ | ⟨y, t⟩
      · exact absurd hx (hexCharsAux_ne_nil fuel (n / 16) hdiv)
      · have hy := ih (n / 16) hdiv hpos
        rw [hx] at hy
        simpa using hy

theorem hexChars_head (n : Nat) (h0 : 0 < n) : (hexChars n).head? ≠ some '0' :=
  hexCharsAux_head (n + 1) n (Nat.lt_succ_self n) h0

theorem joinCh_toLower (pieces : List (List Char))
    (h : ∀ p ∈ pieces, ∀ c ∈ p, Char.toLower c = c) :
    (joinCh ':' pieces).map Char.toLower = joinCh ':' pieces := by
  induction pieces with
  | nil => rfl
  | cons p ps ih =>
    cases ps with
    | nil => exact map_self_of_fixed _ _ (h p (List.mem_cons_self _ _))
    | cons q rest =>
      show (p ++ ':' :: joinCh ':' (q :: rest)).map Char.toLower = _
      rw [List.map_append, List.map_cons,
        map_self_of_fixed _ _ (h p (List.mem_cons_self _ _)),
        ih (fun r hr c hc => h r (List.mem_cons_of_mem _ hr) c hc),
        show Char.toLower ':' = ':' from by decide]
      rfl

theorem formatHexWords_lower (ws : List Nat) :
    (formatHexWords ws).map Char.toLower = formatHexWords ws := by
  unfold formatHexWords
  apply joinCh_toLower
  intro p hp c hc
  obtain ⟨w, -, rfl⟩ := List.mem_map.mp hp
  exact hexChars_lower w c hc

theorem IPv6toString_eq_format (ws : List Nat) :
    IPv6toString ws = formatIPv6 ws := by
  unfold IPv6toString formatIPv6
  rcases h : findRun ws with ⟨longest, _ | s⟩
  · exact formatHexWords_lower ws
  · simp only [List.map_append, List.map_cons]
    rw [formatHexWords_lower, formatHexWords_lower,
      show Char.toLower ':' = ':' from by decide]

/-! ### Claim C9 -/

/-- C9.  `IPv4.parse` succeeds exactly on strings made of four dot-separated
decimal groups of 1-3 digits, each numerically in [0,255], with no leading
zeros except a literal `0` and no other characters, and the parsed components
are the groups' decimal values.  Parsing is a total function into an option,
so no input signals an error. -/
theorem C9_ipv4_parse_grammar (s : List Char) (bs : List Nat) :
    IPv4parse s = some bs ↔ specIPv4 s bs := by
  constructor
  · intro h
    unfold IPv4parse at h
    split_ifs at h with hdot
    unfold parseIPv4Bytes at h
    rcases hsplit : splitCh '.' s with
      _ | ⟨g0, _ | ⟨g1, _ | ⟨g2, _ | ⟨g3, _ | ⟨g4, rest⟩⟩⟩⟩⟩ <;>
        rw [hsplit] at h
    pick_goal 5
    · dsimp only at h
      split_ifs at h with hoct
      simp only [Bool.and_eq_true] at hoct
      obtain ⟨⟨⟨o0, o1⟩, o2⟩, o3⟩ := hoct
      injection h with hbs
      refine ⟨g0, g1, g2, g3, ?_, (octetMatch_iff g0).mp o0,
        (octetMatch_iff g1).mp o1, (octetMatch_iff g2).mp o2,
        (octetMatch_iff g3).mp o3, hbs.symm⟩
      have hjoin := joinCh_splitCh '.' s
      rw [hsplit] at hjoin
      simpa [joinCh] using hjoin.symm
    all_goals simp at h
  · rintro ⟨g0, g1, g2, g3, rfl, h0, h1, h2, h3, rfl⟩
    have hdfree : ∀ g : List Char, g.all isDigitC = true → '.' ∉ g := by
      intro g hg hin
      have hd := List.all_eq_true.mp hg _ hin
      rw [isDigitC_iff] at hd
      have h46 : ('.' : Char).toNat = 46 := rfl
      omega
    have hsplit : splitCh '.' (g0 ++ '.' :: (g1 ++ '.' :: (g2 ++ '.' :: g3))) =
        [g0, g1, g2, g3] := by
      rw [splitCh_append '.' g0 _ (hdfree g0 h0.1),
        splitCh_append '.' g1 _ (hdfree g1 h1.1),
        splitCh_append '.' g2 _ (hdfree g2 h2.1),
        splitCh_sep_free '.' g3 (hdfree g3 h3.1)]
    have hmem : '.' ∈ g0 ++ '.' :: (g1 ++ '.' :: (g2 ++ '.' :: g3)) := by
      simp
    unfold IPv4parse parseIPv4Bytes
    rw [if_neg (by simp [List.elem_eq_true_of_mem hmem]), hsplit]
    simp [(octetMatch_iff g0).mpr h0, (octetMatch_iff g1).mpr h1,
      (octetMatch_iff g2).mpr h2, (octetMatch_iff g3).mpr h3]

/-- Closed witness for `C9_ipv4_parse_grammar` at `192.0.2.1`. -/
theorem C9_ipv4_parse_grammar_witness : specIPv4 ("192.0.2.1".toList) [192, 0, 2, 1] := by
  exact (C9_ipv4_parse_grammar ("192.0.2.1".toList) [192, 0, 2, 1]).mp (by decide)

/-! ### Claim C4 -/

/-- C4.  For plain (non-embedded-IPv4) IPv6 texts: two or more `::`
occurrences yield null; without `::` a successful parse means the text splits
into exactly 8 colon-separated words of 1-4 hex digits whose values are the
parsed words; with exactly one `::` at position `p`, the parse is null when
head-word-count plus tail-word-count exceeds 7 and otherwise yields the head
words, `8 - head - tail` zero words in place of the `::`, then the tail
words. -/
theorem C4_plain_ipv6_words :
    (∀ (s : List Char) (p1 p2 : Nat), p1 < p2 → hasCCAt s p1 = true →
      hasCCAt s p2 = true → parseIPv6Words s = none) ∧
    (∀ (s : List Char) (ws : List Nat),
      (∀ p, p < s.length → hasCCAt s p = false) →
      parseIPv6Words s = some ws →
      (splitCh ':' s).length = 8 ∧
      (∀ p ∈ splitCh ':' s,
        1 ≤ p.length ∧ p.length ≤ 4 ∧ p.all isHexDigitC = true) ∧
      ws = (splitCh ':' s).map hexValue) ∧
    (∀ (s : List Char) (p : Nat) (head tail : List Nat),
      hasCCAt s p = true →
      (∀ q, q < s.length → hasCCAt s q = true → q = p) →
      regexOk s = true →
      parseHexWords (s.take p) = some head →
      parseHexWords (s.drop (p + 2)) = some tail →
      parseIPv6Words s =
        if 7 < head.length + tail.length then none
        else some (head ++
          List.replicate (8 - (head.length + tail.length)) 0 ++ tail)) := by
  refine ⟨?_, ?_, ?_⟩
  · intro s p1 p2 hlt h1 h2
    unfold parseIPv6Words
    split_ifs with hre
    · rfl
    · rcases hf : findCC s with _ | idx
      · rw [findCC_none_iff] at hf
        rw [hf p1] at h1
        cases h1
      · obtain ⟨hidx, hmin⟩ := findCC_some_min s idx hf
        have hle : idx ≤ p1 := by
          by_contra hgt
          push_neg at hgt
          rw [hmin p1 hgt] at h1
          cases h1
        have h2d : hasCCAt (s.drop (idx + 1)) (p2 - (idx + 1)) = true := by
          rw [hasCCAt_drop]
          have harith : idx + 1 + (p2 - (idx + 1)) = p2 := by omega
          rw [harith]
          exact h2
        have hsome : (findCC (s.drop (idx + 1))).isSome = true := by
          rcases hg : findCC (s.drop (idx + 1)) with _ | r
          · rw [findCC_none_iff] at hg
            rw [hg _] at h2d
            cases h2d
          · rfl
        simp [hf, hsome]
  · intro s ws hnocc h
    have hnocc2 : ∀ p, hasCCAt s p = false := by
      intro p
      by_cases hp : p < s.length
      · exact hnocc p hp
      · exact hasCCAt_ge s p (by omega)
    unfold parseIPv6Words at h
    split_ifs at h with hre
    rcases hf : findCC s with _ | idx
    swap
    · obtain ⟨hidx, -⟩ := findCC_some_min s idx hf
      rw [hnocc2 idx] at hidx
      cases hidx
    · rw [hf] at h
      dsimp only at h
      rcases hw : parseHexWords s with _ | head
      · rw [hw] at h
        simp at h
      · rw [hw] at h
        dsimp only at h
        split_ifs at h with hlen8
        injection h with h
        subst h
        push_neg at hlen8
        have hne : s ≠ [] := by
          intro he
          subst he
          simp [parseHexWords] at hw
          subst hw
          simp at hlen8
        obtain ⟨hmap, hpieces⟩ := parseHexWords_eq_some s head hne hw
        have hall : s.all isHexColonChar = true := by
          have hre2 : regexOk s = true := by
            revert hre
            cases regexOk s <;> simp
          simp only [regexOk, Bool.and_eq_true] at hre2
          exact hre2.1.1
        have hhex : ∀ p ∈ splitCh ':' s, p.all isHexDigitC = true := by
          intro p hp
          rw [List.all_eq_true]
          intro c hc
          obtain ⟨hcs, hcne⟩ := splitCh_mem_chars ':' s p hp c hc
          exact hexDigit_of_hexColon c (List.all_eq_true.mp hall c hcs) hcne
        refine ⟨?_, ?_, ?_⟩
        · rw [hmap] at hlen8
          simpa using hlen8
        · intro p hp
          exact ⟨(hpieces p hp).1, (hpieces p hp).2, hhex p hp⟩
        · rw [hmap]
          apply List.map_congr_left
          intro p hp
          exact parseInt16_eq_hexValue p (hhex p hp)
  · intro s p head tail hp huniq hre h1 h2
    have huniq2 : ∀ q, hasCCAt s q = true → q = p := by
      intro q hq
      by_cases hql : q < s.length
      · exact huniq q hql hq
      · rw [hasCCAt_ge s q (by omega)] at hq
        cases hq
    unfold parseIPv6Words
    rw [if_neg (by simp [hre])]
    rcases hf : findCC s with _ | idx
    · rw [findCC_none_iff] at hf
      rw [hf p] at hp
      cases hp
    · obtain ⟨hidx, -⟩ := findCC_some_min s idx hf
      have : idx = p := huniq2 idx hidx
      subst this
      have hnone : findCC (s.drop (idx + 1)) = none := by
        rcases hg : findCC (s.drop (idx + 1)) with _ | r
        · rfl
        · obtain ⟨hr, -⟩ := findCC_some_min _ _ hg
          rw [hasCCAt_drop] at hr
          have := huniq2 _ hr
          omega
      simp [hf, hnone, h1, h2, Nat.sub_sub]

/-- Closed witness for `C4_plain_ipv6_words` at `1::3:4:5:6:7:8`. -/
theorem C4_plain_ipv6_words_witness :
    parseIPv6Words ("1::3:4:5:6:7:8".toList) =
      if 7 < ([1] : List Nat).length + ([3, 4, 5, 6, 7, 8] : List Nat).length
      then none
      else some ([1] ++
        List.replicate
          (8 - (([1] : List Nat).length + ([3, 4, 5, 6, 7, 8] : List Nat).length))
          0 ++ [3, 4, 5, 6, 7, 8]) := by
  exact C4_plain_ipv6_words.2.2 ("1::3:4:5:6:7:8".toList) 1 [1] [3, 4, 5, 6, 7, 8]
    (by decide) (by decide) (by decide) (by decide) (by decide)

/-! ### Claim C1 -/

/-- C1.  The claim states that `_next` (successor) returns `null` exactly at
the family maximum and otherwise increments the numeric value by one.  The
code violates this: the carry loop increments `bytes[i-1]` and then, on the
next iteration, increments that same entry again (`bytes[i]++`), so
`255.255.255.255` wraps to `0.0.0.0` instead of `null`, `1.2.3.255` steps to
`1.2.5.0` instead of `1.2.4.0`, and `254.255.255.255` incorrectly returns
`null`; the all-ones IPv6 address likewise wraps to `::`. -/
theorem C1_next_carry_is_broken :
    IPv4next [255, 255, 255, 255] = some [0, 0, 0, 0] ∧
    IPv4next [1, 2, 3, 255] = some [1, 2, 5, 0] ∧
    IPv4next [254, 255, 255, 255] = none ∧
    IPv6next [65535, 65535, 65535, 65535, 65535, 65535, 65535, 65535] =
      some [0, 0, 0, 0, 0, 0, 0, 0] := by
  decide

/-! ### Claim C2 -/

/-- C2.  The claim states that `ips()` yields exactly the addresses between
`first` and `last` inclusive.  Because `_next` skips addresses (see C1), the
range 1.2.3.255-1.2.4.1 enumerates only 1.2.3.255: the candidate after it is
1.2.5.0, which exceeds `last`, although 1.2.4.0 and 1.2.4.1 lie inside the
range per the ordinal comparison.  (A single-address range does yield exactly
its one address.) -/
theorem C2_ips_skips_in_range_addresses :
    IPRangeparse ("1.2.3.255-1.2.4.1".toList) =
      some ⟨.v4 [1, 2, 3, 255], .v4 [1, 2, 4, 1], 4⟩ ∧
    ipsOf ⟨.v4 [1, 2, 3, 255], .v4 [1, 2, 4, 1], 4⟩ 10 =
      some [.v4 [1, 2, 3, 255]] ∧
    cmpSameLengthArrays [1, 2, 3, 255] [1, 2, 4, 0] = -1 ∧
    cmpSameLengthArrays [1, 2, 4, 0] [1, 2, 4, 1] = -1 ∧
    (IPRangeparse ("1.2.3.4-1.2.3.4".toList)).bind (fun r => ipsOf r 10) =
      some [.v4 [1, 2, 3, 4]] := by
  decide

/-! ### Claim C3 -/

/-- C3, counterexample.  The claim states that any input containing a
character other than a hex digit or a colon (such as a dot) is rejected.
The embedded-IPv4 form `::ffff:192.0.2.1` contains dots, fails the
`IPV6_REGEX` character-set test, and is nevertheless accepted. -/
theorem C3_counterexample :
    IPv6parse ("::ffff:192.0.2.1".toList) =
      some [0, 0, 0, 0, 0, 65535, 49152, 513] ∧
    regexOk ("::ffff:192.0.2.1".toList) = false := by
  decide

/-- C3, amended.  Every colon-free input is rejected; and every input whose
final colon-separated segment is not a valid dotted-quad IPv4 literal is
rejected unless it consists solely of hex digits and colons and has length
between 2 and 39 (the `IPV6_REGEX` test). -/
theorem C3_charset_gate_for_plain_inputs :
    (∀ s : List Char, lastIdxColon s = none → IPv6parse s = none) ∧
    (∀ (s : List Char) (idx : Nat), lastIdxColon s = some idx →
      parseIPv4Bytes (s.drop (idx + 1)) = none →
      regexOk s = false → IPv6parse s = none) := by
  constructor
  · intro s h
    simp [IPv6parse, h]
  · intro s idx h1 h2 h3
    simp [IPv6parse, h1, h2, parseIPv6Words, h3]

/-- Closed witness for `C3_charset_gate_for_plain_inputs` at concrete
inputs. -/
theorem C3_charset_gate_witness :
    IPv6parse ("1234".toList) = none ∧ IPv6parse ("z:1".toList) = none := by
  constructor
  · exact C3_charset_gate_for_plain_inputs.1 ("1234".toList) (by decide)
  · exact C3_charset_gate_for_plain_inputs.2 ("z:1".toList) 1 (by decide)
      (by decide) (by decide)

/-! ### Claim C5 -/

/-- C5.  For an input with a colon whose final colon-separated segment is a
valid dotted-quad IPv4 literal, `IPv6.parse` is the plain-words parse of the
text up to and including that colon with `"0:0"` appended, with words 6 and 7
overwritten by the packed IPv4 bytes; when the final segment is not a valid
dotted quad the embedded path is never taken; and `::ffff:192.0.2.1` parses
`cmp`-equal to `::ffff:c000:201`. -/
theorem C5_embedded_ipv4_tail :
    (∀ (s : List Char) (idx b0 b1 b2 b3 : Nat), lastIdxColon s = some idx →
      parseIPv4Bytes (s.drop (idx + 1)) = some [b0, b1, b2, b3] →
      IPv6parse s = (parseIPv6Words (s.take (idx + 1) ++ ['0', ':', '0'])).map
        (fun ws => (ws.set 6 (b0 * 256 + b1)).set 7 (b2 * 256 + b3))) ∧
    (∀ (s : List Char) (idx : Nat), lastIdxColon s = some idx →
      parseIPv4Bytes (s.drop (idx + 1)) = none →
      IPv6parse s = parseIPv6Words s) ∧
    (∃ x y, IPv6parse ("::ffff:192.0.2.1".toList) = some x ∧
      IPv6parse ("::ffff:c000:201".toList) = some y ∧
      cmpSameLengthArrays x y = 0) := by
  refine ⟨?_, ?_, ?_⟩
  · intro s idx b0 b1 b2 b3 h1 h2
    simp only [IPv6parse, h1, h2]
    cases parseIPv6Words (s.take (idx + 1) ++ ['0', ':', '0']) <;>
      simp [List.getD]
  · intro s idx h1 h2
    simp [IPv6parse, h1, h2]
  · exact ⟨[0, 0, 0, 0, 0, 65535, 49152, 513],
      [0, 0, 0, 0, 0, 65535, 49152, 513], by decide, by decide, by decide⟩

/-- Closed witness for `C5_embedded_ipv4_tail` at `::ffff:192.0.2.1`. -/
theorem C5_embedded_ipv4_tail_witness :
    IPv6parse ("::ffff:192.0.2.1".toList) =
      (parseIPv6Words (("::ffff:192.0.2.1".toList).take 7 ++ ['0', ':', '0'])).map
        (fun ws => (ws.set 6 (192 * 256 + 0)).set 7 (2 * 256 + 1)) := by
  exact C5_embedded_ipv4_tail.1 ("::ffff:192.0.2.1".toList) 6 192 0 2 1
    (by decide) (by decide)

/-! ### Claim C6 -/

/-- C6.  `IPv6.toString` emits lowercase minimal hex words joined by colons,
compressing with `::` exactly the leftmost of the longest runs of at least
two zero words (`bestStart`, worded from the spec, picks the first position
whose zero-run is at least 2 and at least as long as every other run); with
no qualifying run all 8 words are joined uncompressed; the all-zero address
prints `::`; `1:0:0:0:5:0:0:0` prints `1::5:0:0:0`; hex words never have a
leading zero (except the numeral `0` itself) and are always lowercase. -/
theorem C6_toString_compression :
    (∀ ws : List Nat, ws.length = 8 → bestStart ws = none →
      IPv6toString ws = formatHexWords ws) ∧
    (∀ (ws : List Nat) (s : Nat), ws.length = 8 → bestStart ws = some s →
      IPv6toString ws = formatHexWords (ws.take s) ++ ':' :: ':' ::
        formatHexWords (ws.drop (s + runAt ws s))) ∧
    IPv6toString [0, 0, 0, 0, 0, 0, 0, 0] = [':', ':'] ∧
    IPv6toString [1, 0, 0, 0, 5, 0, 0, 0] = "1::5:0:0:0".toList ∧
    (∀ n : Nat, 0 < n → (hexChars n).head? ≠ some '0') ∧
    (∀ n : Nat, ∀ c ∈ hexChars n, Char.toLower c = c) := by
  refine ⟨?_, ?_, by decide, by decide, hexChars_head, hexChars_lower⟩
  · intro ws hl hbs
    rw [IPv6toString_eq_format]
    unfold formatIPv6
    rw [findRun_eq_bestStart ws hl, hbs]
  · intro ws s hl hbs
    rw [IPv6toString_eq_format]
    unfold formatIPv6
    rw [findRun_eq_bestStart ws hl, hbs]

/-- Closed witness for `C6_toString_compression` at `1:0:0:0:5:0:0:0`. -/
theorem C6_toString_compression_witness :
    IPv6toString [1, 0, 0, 0, 5, 0, 0, 0] =
      formatHexWords (([1, 0, 0, 0, 5, 0, 0, 0] : List Nat).take 1) ++ ':' :: ':' ::
        formatHexWords (([1, 0, 0, 0, 5, 0, 0, 0] : List Nat).drop
          (1 + runAt [1, 0, 0, 0, 5, 0, 0, 0] 1)) := by
  exact C6_toString_compression.2.1 [1, 0, 0, 0, 5, 0, 0, 0] 1 (by decide)
    (by decide)

/-! ### Claim C7 -/

/-- C7.  For every address and prefix length within the family width,
`cidr` returns the range whose first endpoint clears, and whose last endpoint
sets to one, the low `clamp((i+1)·W - bits, 0, W)` bits of each item `i`
(arithmetically: item `w` becomes `w - w % 2^L`, resp.
`w - w % 2^L + (2^L - 1)`), leaving all prefix bits unchanged; no endpoint
swap occurs; and `cidr` of `1:2:3:ffff:5:6:7:8` at 49 bits has first
`1:2:3:8000::` and last `1:2:3:ffff:ffff:ffff:ffff:ffff`. -/
theorem C7_cidr_mask :
    (∀ (ws : List Nat) (bits : Nat), ws.length = 8 → (∀ w ∈ ws, w < 65536) →
      bits ≤ 128 →
      IPcidr (.v6 ws) bits =
        some ⟨.v6 (specMask ws bits 16 0), .v6 (specMask ws bits 16 1), 6⟩) ∧
    (∀ (bs : List Nat) (bits : Nat), bs.length = 4 → (∀ b ∈ bs, b < 256) →
      bits ≤ 32 →
      IPcidr (.v4 bs) bits =
        some ⟨.v4 (specMask bs bits 8 0), .v4 (specMask bs bits 8 1), 4⟩) ∧
    (∃ f l, IPRangeparse ("1:2:3:ffff:5:6:7:8/49".toList) =
        some ⟨.v6 f, .v6 l, 6⟩ ∧
      IPv6toString f = "1:2:3:8000::".toList ∧
      IPv6toString l = "1:2:3:ffff:ffff:ffff:ffff:ffff".toList) := by
  refine ⟨?_, ?_, ?_⟩
  · intro ws bits _ hw _
    obtain ⟨h0, h1⟩ := maskItems_spec 16 bits ws 0 hw
    show mkRange _ _ = _
    unfold mask
    rw [h0, h1]
    unfold mkRange
    rw [if_neg (by simp [IPversion])]
    have hle : IPcmp (.v6 (specMaskItems 16 bits 0 0 ws))
        (.v6 (specMaskItems 16 bits 1 0 ws)) ≤ 0 :=
      cmpL_le_of_forall2 _ _ (specMask_forall2_le 16 bits ws 0)
    rw [if_neg (by omega)]
    rfl
  · intro bs bits _ hw _
    obtain ⟨h0, h1⟩ := maskItems_spec 8 bits bs 0 hw
    show mkRange _ _ = _
    unfold mask
    rw [h0, h1]
    unfold mkRange
    rw [if_neg (by simp [IPversion])]
    have hle : IPcmp (.v4 (specMaskItems 8 bits 0 0 bs))
        (.v4 (specMaskItems 8 bits 1 0 bs)) ≤ 0 :=
      cmpL_le_of_forall2 _ _ (specMask_forall2_le 8 bits bs 0)
    rw [if_neg (by omega)]
    rfl
  · exact ⟨[1, 2, 3, 32768, 0, 0, 0, 0],
      [1, 2, 3, 65535, 65535, 65535, 65535, 65535], by decide, by decide, by decide⟩

/-- Closed witness for `C7_cidr_mask` at `1:2:3:ffff:5:6:7:8/49`. -/
theorem C7_cidr_mask_witness :
    IPcidr (.v6 [1, 2, 3, 65535, 5, 6, 7, 8]) 49 =
      some ⟨.v6 (specMask [1, 2, 3, 65535, 5, 6, 7, 8] 49 16 0),
        .v6 (specMask [1, 2, 3, 65535, 5, 6, 7, 8] 49 16 1), 6⟩ := by
  exact C7_cidr_mask.1 [1, 2, 3, 65535, 5, 6, 7, 8] 49 (by decide) (by decide)
    (by decide)

/-! ### Claim C10 -/

/-- C10.  Constructing a range fails (a thrown `TypeError`, modelled as
`none`) exactly when the two endpoint versions differ; otherwise the
endpoints are the two given addresses ordered so that `first ≤ last` under
the ordinal comparator, and the range's version is the endpoints' version;
`parseRange "2.2.3.4-1.2.3.4"` normalizes to first 1.2.3.4, last 2.2.3.4. -/
theorem C10_range_construction :
    (∀ a b : IP, mkRange a b = none ↔ IPversion a ≠ IPversion b) ∧
    (∀ (a b : IP) (r : IPRangeT), mkRange a b = some r →
      IPcmp r.first r.last ≤ 0 ∧ IPversion r.first = IPversion r.last ∧
      r.version = IPversion a ∧
      ((r.first = a ∧ r.last = b) ∨ (r.first = b ∧ r.last = a))) ∧
    IPRangeparse ("2.2.3.4-1.2.3.4".toList) =
      some ⟨.v4 [1, 2, 3, 4], .v4 [2, 2, 3, 4], 4⟩ := by
  refine ⟨?_, ?_, by decide⟩
  · intro a b
    unfold mkRange
    split_ifs <;> simp_all
  · intro a b r h
    unfold mkRange at h
    split_ifs at h with hv hc
    · cases h
      have := IPcmp_antisym b a
      push_neg at hv
      refine ⟨by dsimp only; omega, by simpa using hv.symm, rfl, Or.inr ⟨rfl, rfl⟩⟩
    · cases h
      push_neg at hv
      exact ⟨by dsimp only; omega, by simpa using hv, rfl, Or.inl ⟨rfl, rfl⟩⟩

/-- Closed witness for `C10_range_construction` on a reversed IPv4 pair. -/
theorem C10_range_construction_witness :
    IPcmp (IP.v4 [1, 2, 3, 4]) (IP.v4 [2, 2, 3, 4]) ≤ 0 ∧
    IPversion (IP.v4 [1, 2, 3, 4]) = IPversion (IP.v4 [2, 2, 3, 4]) ∧
    (4 : Nat) = IPversion (IP.v4 [2, 2, 3, 4]) ∧
    ((IP.v4 [1, 2, 3, 4] = IP.v4 [2, 2, 3, 4] ∧
        IP.v4 [2, 2, 3, 4] = IP.v4 [1, 2, 3, 4]) ∨
      (IP.v4 [1, 2, 3, 4] = IP.v4 [1, 2, 3, 4] ∧
        IP.v4 [2, 2, 3, 4] = IP.v4 [2, 2, 3, 4])) := by
  exact C10_range_construction.2.1 (IP.v4 [2, 2, 3, 4]) (IP.v4 [1, 2, 3, 4])
    ⟨IP.v4 [1, 2, 3, 4], IP.v4 [2, 2, 3, 4], 4⟩ (by decide)

end Ipv46
